import Mathlib

/-!
Verification development for the `mkmod` module-creation tool.

The file embeds the core of `src/lib.rs` shallowly:

* file contents are `List Char` (one Lean `Char` per byte of the files the
  tool handles, which are ASCII source files);
* `io::BufReader::lines` is `linesOf`;
* the three line-classification regular expressions are executable predicates
  over character lists;
* the scanning loop of `file_info` is `file_info_go`, a structural recursion
  over the list of lines carrying the loop's mutable state;
* `insert_mod_at_line` is modelled twice: as a pure function from the target
  file's content to the rewritten content, and as a sequence of I/O
  operations (`insertOps`) run against a small filesystem state with fault
  injection, to reason about error paths and atomicity;
* `super_path` runs against a filesystem modelled as the list of existing
  paths (paths are lists of components).
-/

namespace Mkmod

/-- ASCII whitespace, modelling the regex character class and the
whitespace tests used by `trim` on the inputs the tool handles. -/
def isWs (c : Char) : Bool :=
  c = ' ' || c = '\t' || c = '\n' || c = '\r' || c = Char.ofNat 11 || c = Char.ofNat 12

/-- The import pattern `Regex::new(r"^\s*use\s+").is_match(line)`:
optional leading whitespace, `use`, then at least one whitespace. -/
def re_use_match (l : List Char) : Bool :=
  match l.dropWhile isWs with
  | c1 :: c2 :: c3 :: c4 :: _ => c1 = 'u' && c2 = 's' && c3 = 'e' && isWs c4
  | _ => false

/-- Does a character list start with the three letters `mod`. -/
def startsWithMod : List Char → Bool
  | c1 :: c2 :: c3 :: _ => c1 = 'm' && c2 = 'o' && c3 = 'd'
  | _ => false

/-- The module-declaration pattern `Regex::new(r"^\s*(?:pub)?\s*mod").is_match(line)`:
optional whitespace, optional `pub`, optional whitespace, `mod`. -/
def re_mod_match (l : List Char) : Bool :=
  let t := l.dropWhile isWs
  startsWithMod t ||
    (match t with
     | c1 :: c2 :: c3 :: rest =>
      c1 = 'p' && c2 = 'u' && c3 = 'b' && startsWithMod (rest.dropWhile isWs)
     | _ => false)

/-- The comment pattern `Regex::new(r"^\s*//").is_match(line)`. -/
def re_comment_match (l : List Char) : Bool :=
  match l.dropWhile isWs with
  | c1 :: c2 :: _ => c1 = '/' && c2 = '/'
  | _ => false

/-- `re_use.is_match(&line) || re_mod.is_match(&line)` (src/lib.rs line 304). -/
def preamble_line (l : List Char) : Bool := re_use_match l || re_mod_match l

/-- Finish one buffered line that was terminated by a newline byte:
`BufRead::lines` strips the `\n` and also a `\r` immediately before it.
`acc` holds the line's characters in reverse order. -/
def finishLine : List Char → List Char
  | [] => []
  | c :: a => if c = '\r' then a.reverse else (c :: a).reverse

/-- Worker for `linesOf`; `acc` holds the current line's characters in
reverse order.  A final line at end of input keeps a trailing `\r`
(only `\r\n` pairs are stripped), and input ending in `\n` does not
produce a trailing empty line — exactly `BufRead::lines`. -/
def linesOfAux (acc : List Char) : List Char → List (List Char)
  | [] => [acc.reverse]
  | c :: rest =>
    if c = '\n' then
      match rest with
      | [] => [finishLine acc]
      | _ :: _ => finishLine acc :: linesOfAux [] rest
    else
      linesOfAux (c :: acc) rest

/-- The lines of a file's content, as produced by
`io::BufReader::new(file).lines()`. -/
def linesOf : List Char → List (List Char)
  | [] => []
  | c :: rest => linesOfAux [] (c :: rest)

/-- The mutable state of the `file_info` scanning loop
(src/lib.rs lines 266-271). -/
structure ScanState where
  content_start : Bool
  body_start : Bool
  preamble_exists : Bool
  header_comment_exists : Bool
  preamble_end : Option Nat
  header_comment_end : Option Nat
deriving Repr, DecidableEq

/-- The scanning loop of `file_info` (src/lib.rs lines 272-313): one step per
source line, `l_num` the zero-based index of the next line.  The early
`break` on the end of the preamble returns the state immediately. -/
def file_info_go (l_num : Nat) (s : ScanState) : List (List Char) → ScanState
  | [] => s
  | line :: rest =>
    if !s.content_start && line.all isWs then
      -- ignore leading blank lines
      file_info_go (l_num + 1) s rest
    else
      -- content_start = true
      let s1 : ScanState := { s with content_start := true }
      if !s1.body_start && re_comment_match line then
        -- leading comment line: record it and continue
        file_info_go (l_num + 1) { s1 with header_comment_exists := true } rest
      else
        let s2 : ScanState :=
          if !s1.body_start then
            { s1 with
              body_start := true,
              header_comment_end :=
                if s1.header_comment_exists then some (l_num - 1)
                else s1.header_comment_end }
          else s1
        if preamble_line line && !s2.preamble_exists then
          file_info_go (l_num + 1) { s2 with preamble_exists := true } rest
        else if !(preamble_line line) && s2.preamble_exists then
          { s2 with preamble_end := some (l_num - 1) }
        else
          file_info_go (l_num + 1) s2 rest

/-- The initial loop state: all flags false, both ends `None`. -/
def initState : ScanState := ⟨false, false, false, false, none, none⟩

/-- `file_info`'s result as a function of the file's lines. -/
def file_info_lines (lines : List (List Char)) : ScanState :=
  file_info_go 0 initState lines

/-- `file_info` (src/lib.rs lines 257-316) on a file's content.  The four
result components are the fields `preamble_exists`, `preamble_end`,
`header_comment_exists`, `header_comment_end`. -/
def file_info (content : List Char) : ScanState :=
  file_info_lines (linesOf content)

/-- The insertion-point computation of `add_module_to`
(src/lib.rs lines 214-240), translated clause by clause. -/
def add_module_to_insert (preamble_exists : Bool) (preamble_end : Option Nat)
    (header_comment_exists : Bool) (header_comment_end : Option Nat) : Option Nat :=
  if preamble_exists then
    if preamble_end.isNone then
      -- preamble ends file: append new module
      none
    else
      -- add new module to end of preamble
      some (preamble_end.get! + 1)
  else if header_comment_exists then
    if header_comment_end.isNone then
      -- header comment ends file: append new module
      none
    else
      some (header_comment_end.get! + 1)
  else
    -- add new module to top of file
    some 0

/-- The Insertion Point selection policy exactly as the specification words
it (spec section 4.3); written independently of the code, to be compared
with `add_module_to_insert`. -/
def insertionPolicySpec (preamble_exists : Bool) (preamble_end : Option Nat)
    (header_comment_exists : Bool) (header_comment_end : Option Nat) : Option Nat :=
  if preamble_exists then
    match preamble_end with
    | some e => some (e + 1)
    | none => none
  else if header_comment_exists then
    match header_comment_end with
    | some e => some (e + 1)
    | none => none
  else
    some 0

/-- `format!("pub mod {mod_name};")` or `format!("mod {mod_name};")`
(src/lib.rs lines 327-330). -/
def mod_line (mod_name : List Char) (public : Bool) : List Char :=
  if public then "pub mod ".toList ++ mod_name ++ [';']
  else "mod ".toList ++ mod_name ++ [';']

/-- The copy loop of `insert_mod_at_line` (src/lib.rs lines 340-353):
stream the original lines in order, writing the module line immediately
before the line whose index equals `insert`; `writeln!` terminates every
written line with a single `\n`. -/
def copyLoop (mod_str : List Char) (insert : Option Nat) :
    Nat → List (List Char) → List Char
  | _, [] => []
  | l_num, line :: rest =>
    (if insert = some l_num then mod_str ++ ['\n'] else []) ++
      (line ++ '\n' :: copyLoop mod_str insert (l_num + 1) rest)

/-- `insert_mod_at_line` (src/lib.rs lines 325-363) as a pure function from
the target file's content to the content it is replaced with.  The final
condition mirrors `insert == None || md.len() == 0`. -/
def insert_mod_at_line (mod_name : List Char) (insert : Option Nat)
    (public : Bool) (content : List Char) : List Char :=
  let mod_str := mod_line mod_name public
  let out := copyLoop mod_str insert 0 (linesOf content)
  if insert = none ∨ content.length = 0 then out ++ mod_str ++ ['\n'] else out

/-- `add_module_to` (src/lib.rs lines 197-244): classify the file, compute
the insertion point, insert the module line. -/
def add_module_to (mod_name : List Char) (content : List Char) (public : Bool) :
    List Char :=
  let fi := file_info content
  let insert := add_module_to_insert fi.preamble_exists fi.preamble_end
    fi.header_comment_exists fi.header_comment_end
  insert_mod_at_line mod_name insert public content

/-- Render a sequence of lines the way `writeln!` writes them: each line
followed by a single `\n`. -/
def render : List (List Char) → List Char
  | [] => []
  | l :: ls => l ++ '\n' :: render ls

/-- Insert an element at position `i` of a list of lines
(specification-side helper). -/
def insertLine (x : List Char) : Nat → List (List Char) → List (List Char)
  | _, [] => [x]
  | 0, ls => x :: ls
  | i + 1, l :: ls => l :: insertLine x i ls

/-- The state update of one non-blank, non-header-comment iteration of the
`file_info` loop before the preamble check (content starts; the body starts
if it had not, closing the header comment).  Derived decomposition of
`file_info_go`'s loop body, used to state its unfolding equations. -/
def stepState (l_num : Nat) (s : ScanState) : ScanState :=
  let s1 : ScanState := { s with content_start := true }
  if !s1.body_start then
    { s1 with
      body_start := true,
      header_comment_end :=
        if s1.header_comment_exists then some (l_num - 1)
        else s1.header_comment_end }
  else s1

/-- The preamble check of one iteration of the `file_info` loop (the
`match (preamble_line, preamble_exists)` of src/lib.rs lines 305-312).
Derived decomposition of `file_info_go`'s loop body. -/
def preambleStep (l_num : Nat) (t : ScanState) (line : List Char)
    (rest : List (List Char)) : ScanState :=
  if preamble_line line && !t.preamble_exists then
    file_info_go (l_num + 1) { t with preamble_exists := true } rest
  else if !(preamble_line line) && t.preamble_exists then
    { t with preamble_end := some (l_num - 1) }
  else
    file_info_go (l_num + 1) t rest

/-- A line with no embedded newline byte and no trailing carriage return:
for such lines `linesOf` inverts the renderings below. -/
def goodLine (l : List Char) : Prop := '\n' ∉ l ∧ l.getLast? ≠ some '\r'

instance (l : List Char) : Decidable (goodLine l) := by unfold goodLine; infer_instance

/-- Render lines with CRLF terminators. -/
def renderCRLF : List (List Char) → List Char
  | [] => []
  | l :: ls => l ++ '\r' :: '\n' :: renderCRLF ls

/-- Render lines with LF terminators but no newline after the final line. -/
def renderNoFinal : List (List Char) → List Char
  | [] => []
  | l :: [] => l
  | l :: l2 :: ls => l ++ '\n' :: renderNoFinal (l2 :: ls)

/-! ### Effect model of `insert_mod_at_line`

`insert_mod_at_line` touches the filesystem through a fixed sequence of
fallible operations; `insertOps` lists them in program order and `runOps`
executes them against a state holding the target file's content and the
scratch file, optionally injecting a failure.  On every early return the
`NamedTempFile` guard is dropped, which removes the scratch file (tempfile
crate drop semantics). -/

/-- Filesystem state visible to `insert_mod_at_line`: the target file's
content and the scratch (temp) file. -/
structure FsState where
  target : List Char
  tmpExists : Bool
  tmpContent : List Char
deriving Repr, DecidableEq

/-- One fallible I/O operation performed by `insert_mod_at_line`. -/
inductive FsOp
  | mkTemp                    -- NamedTempFile::new()
  | openTarget                -- File::open(path)
  | readMeta                  -- file.metadata()
  | readLine                  -- one item of BufReader::lines
  | writeTmp (s : List Char)  -- writeln!(tmp, ...)
  | renameTmp                 -- fs::rename(tmp.path(), path)
deriving Repr, DecidableEq

/-- Effect of a successful operation on the filesystem state.  `renameTmp`
atomically replaces the target with the scratch file; nothing else writes
the target. -/
def applyOp (fs : FsState) : FsOp → FsState
  | .mkTemp => { fs with tmpExists := true, tmpContent := [] }
  | .openTarget => fs
  | .readMeta => fs
  | .readLine => fs
  | .writeTmp s => { fs with tmpContent := fs.tmpContent ++ s }
  | .renameTmp => { fs with target := fs.tmpContent, tmpExists := false }

/-- Dropping the `NamedTempFile` guard deletes the scratch file; this runs
on every early-return path of `insert_mod_at_line`. -/
def dropTmp (fs : FsState) : FsState := { fs with tmpExists := false }

/-- The operations of the copy loop (src/lib.rs lines 340-353): read a
line, possibly write the module line, write the line. -/
def loopOps (mod_str : List Char) (insert : Option Nat) :
    Nat → List (List Char) → List FsOp
  | _, [] => []
  | l_num, line :: rest =>
    .readLine ::
      ((if insert = some l_num then [.writeTmp (mod_str ++ ['\n'])] else []) ++
        (.writeTmp (line ++ ['\n']) :: loopOps mod_str insert (l_num + 1) rest))

/-- All I/O operations of `insert_mod_at_line` (src/lib.rs lines 325-363),
in program order: temp creation, open, metadata, the copy loop, the
conditional append, the final rename. -/
def insertOps (mod_name : List Char) (insert : Option Nat) (public : Bool)
    (content : List Char) : List FsOp :=
  let mod_str := mod_line mod_name public
  .mkTemp :: .openTarget :: .readMeta ::
    (loopOps mod_str insert 0 (linesOf content) ++
      (if insert = none ∨ content.length = 0 then [.writeTmp (mod_str ++ ['\n'])] else []) ++
      [.renameTmp])

/-- Run a list of operations.  `some k` makes the `k`-th operation (zero
based) fail: it has no effect, the function returns early with an error,
and the scratch guard is dropped.  `none` means every operation succeeds. -/
def runOps (fs : FsState) : List FsOp → Option Nat → Bool × FsState
  | [], _ => (true, fs)
  | _ :: _, some 0 => (false, dropTmp fs)
  | op :: rest, none => runOps (applyOp fs op) rest none
  | op :: rest, some (k + 1) => runOps (applyOp fs op) rest (some k)

/-! ### Path model for the scratch file and `super_path`

Paths are lists of components (relative to the filesystem root); a
filesystem is the list of existing paths. -/

/-- The system temp directory `std::env::temp_dir()`. -/
def tempDir : List String := ["tmp"]

/-- Directory in which `insert_mod_at_line` creates its scratch file:
`NamedTempFile::new()` always uses the system temp directory — it takes no
argument and is independent of the target path. -/
def scratchDirOf (_targetPath : List String) : List String := tempDir

/-- The directory containing a path. -/
def parentDirOf (p : List String) : List String := p.dropLast

/-- `Path::parent`: `None` at the root. -/
def parentOf : List String → Option (List String)
  | [] => none
  | p => some p.dropLast

/-- The error kinds `super_path` can produce (`io::ErrorKind` values used
in src/lib.rs). -/
inductive ErrKind
  | NotFound
  | InvalidInput
  | InvalidFilename
deriving Repr, DecidableEq

/-- The super file `super_path` selects for a module whose parent directory
is `parent` (src/lib.rs lines 161-179), written as a standalone selection
for use in theorem statements. -/
def super_file_of (fs : List (List String)) (parent : List String)
    (super_main : Bool) : List String :=
  if parent.dropLast ++ ["Cargo.toml"] ∈ fs then
    if super_main then parent ++ ["main.rs"]
    else if parent ++ ["lib.rs"] ∈ fs then parent ++ ["lib.rs"]
    else parent ++ ["main.rs"]
  else parent ++ ["mod.rs"]

/-- `super_path` (src/lib.rs lines 144-188).  `canonicalize` is modelled as
requiring the module path to exist (it fails with `NotFound` otherwise) and
to already be absolute and canonical. -/
def super_path (fs : List (List String)) (path : List String)
    (super_main : Bool) : Except ErrKind (List String) :=
  if path ∈ fs then
    match parentOf path with
    | none => .error .InvalidFilename
    | some parent =>
      match parentOf parent with
      | none => .error .InvalidFilename
      | some g_parent =>
        let cargo_file := g_parent ++ ["Cargo.toml"]
        let parent_is_root := cargo_file ∈ fs
        let super_file :=
          if parent_is_root then
            if super_main then parent ++ ["main.rs"]
            else
              let lib_file := parent ++ ["lib.rs"]
              if lib_file ∈ fs then lib_file
              else parent ++ ["main.rs"]
          else parent ++ ["mod.rs"]
        if super_file ∈ fs then .ok super_file
        else .error .InvalidInput
  else .error .NotFound

deriving instance DecidableEq for Except

-- Sanity checks of the embedding on the spec's concrete scenario
-- (`// header`, blank, `use a::b;`, `mod x;`, `fn main()`).
example :
    file_info ("// header\n\nuse a::b;\nmod x;\nfn main()\n".toList) =
      ⟨true, true, true, true, some 3, some 0⟩ := by decide

example :
    add_module_to "y".toList ("// header\n\nuse a::b;\nmod x;\nfn main()\n".toList) true =
      "// header\n\nuse a::b;\nmod x;\npub mod y;\nfn main()\n".toList := by decide

example : file_info "".toList = initState := by decide

example : linesOf "a\r\nb".toList = ["a".toList, "b".toList] := by decide

/-! ### Facts about the line classifiers -/

theorem dropWhile_isWs_of_all (l : List Char) (h : l.all isWs = true) :
    l.dropWhile isWs = [] := by
  induction l with
  | nil => rfl
  | cons c cs ih =>
    simp only [List.all_cons, Bool.and_eq_true] at h
    simp [List.dropWhile_cons, h.1, ih h.2]

theorem re_use_head (l : List Char) (h : re_use_match l = true) :
    (l.dropWhile isWs).head? = some 'u' := by
  unfold re_use_match at h
  cases hd : l.dropWhile isWs with
  | nil => rw [hd] at h; simp at h
  | cons c1 t1 =>
    rw [hd] at h
    cases t1 with
    | nil => simp at h
    | cons c2 t2 =>
      cases t2 with
      | nil => simp at h
      | cons c3 t3 =>
        cases t3 with
        | nil => simp at h
        | cons c4 t4 =>
          simp only [Bool.and_eq_true, decide_eq_true_eq] at h
          simp [h.1.1.1]

theorem startsWithMod_head (t : List Char) (h : startsWithMod t = true) :
    t.head? = some 'm' := by
  unfold startsWithMod at h
  cases t with
  | nil => simp at h
  | cons c1 t1 =>
    cases t1 with
    | nil => simp at h
    | cons c2 t2 =>
      cases t2 with
      | nil => simp at h
      | cons c3 t3 =>
        simp only [Bool.and_eq_true, decide_eq_true_eq] at h
        simp [h.1.1]

theorem re_mod_head (l : List Char) (h : re_mod_match l = true) :
    (l.dropWhile isWs).head? = some 'm' ∨ (l.dropWhile isWs).head? = some 'p' := by
  unfold re_mod_match at h
  rw [Bool.or_eq_true] at h
  rcases h with h | h
  · exact Or.inl (startsWithMod_head _ h)
  · right
    cases hd : l.dropWhile isWs with
    | nil => rw [hd] at h; simp at h
    | cons c1 t1 =>
      rw [hd] at h
      cases t1 with
      | nil => simp at h
      | cons c2 t2 =>
        cases t2 with
        | nil => simp at h
        | cons c3 t3 =>
          simp only [Bool.and_eq_true, decide_eq_true_eq] at h
          simp [h.1.1.1]

theorem re_comment_head (l : List Char) (h : re_comment_match l = true) :
    (l.dropWhile isWs).head? = some '/' := by
  unfold re_comment_match at h
  cases hd : l.dropWhile isWs with
  | nil => rw [hd] at h; simp at h
  | cons c1 t1 =>
    rw [hd] at h
    cases t1 with
    | nil => simp at h
    | cons c2 t2 =>
      simp only [Bool.and_eq_true, decide_eq_true_eq] at h
      simp [h.1]

theorem preamble_line_not_blank (l : List Char) (h : preamble_line l = true) :
    l.all isWs = false := by
  by_contra hb
  rw [Bool.not_eq_false] at hb
  rw [preamble_line, Bool.or_eq_true] at h
  rcases h with h | h
  · have := re_use_head l h
    rw [dropWhile_isWs_of_all l hb] at this
    simp at this
  · rcases re_mod_head l h with h1 | h1 <;>
      rw [dropWhile_isWs_of_all l hb] at h1 <;> simp at h1

theorem comment_not_blank (l : List Char) (h : re_comment_match l = true) :
    l.all isWs = false := by
  by_contra hb
  rw [Bool.not_eq_false] at hb
  have := re_comment_head l h
  rw [dropWhile_isWs_of_all l hb] at this
  simp at this

theorem comment_not_preamble (l : List Char) (h : re_comment_match l = true) :
    preamble_line l = false := by
  have hc := re_comment_head l h
  by_contra hp
  rw [Bool.not_eq_false, preamble_line, Bool.or_eq_true] at hp
  rcases hp with hu | hm
  · rw [re_use_head l hu] at hc
    exact absurd hc (by decide)
  · rcases re_mod_head l hm with h1 | h1 <;> rw [h1] at hc <;>
      exact absurd hc (by decide)

theorem preamble_not_comment (l : List Char) (h : preamble_line l = true) :
    re_comment_match l = false := by
  by_contra hc
  rw [Bool.not_eq_false] at hc
  rw [comment_not_preamble l hc] at h
  simp at h

/-! ### Behaviour of the scanning loop -/

theorem go_nil (n : Nat) (s : ScanState) : file_info_go n s [] = s := rfl

/-- Loop iteration, leading-blank case. -/
theorem go_cons_skip (n : Nat) (s : ScanState) (line : List Char)
    (rest : List (List Char))
    (h1 : (!s.content_start && line.all isWs) = true) :
    file_info_go n s (line :: rest) = file_info_go (n + 1) s rest := by
  simp only [file_info_go]
  rw [if_pos h1]

/-- Loop iteration, header-comment case. -/
theorem go_cons_comment (n : Nat) (s : ScanState) (line : List Char)
    (rest : List (List Char))
    (h1 : ¬((!s.content_start && line.all isWs) = true))
    (h2 : (!s.body_start && re_comment_match line) = true) :
    file_info_go n s (line :: rest) =
      file_info_go (n + 1)
        { s with content_start := true, header_comment_exists := true } rest := by
  simp only [file_info_go]
  rw [if_neg h1, if_pos h2]

/-- Loop iteration, body case: state update then preamble check. -/
theorem go_cons_body (n : Nat) (s : ScanState) (line : List Char)
    (rest : List (List Char))
    (h1 : ¬((!s.content_start && line.all isWs) = true))
    (h2 : ¬((!s.body_start && re_comment_match line) = true)) :
    file_info_go n s (line :: rest) = preambleStep n (stepState n s) line rest := by
  simp only [file_info_go]
  rw [if_neg h1, if_neg h2]
  rfl

theorem stepState_of_body (n : Nat) (s : ScanState) (h : s.body_start = true) :
    stepState n s = { s with content_start := true } := by
  simp [stepState, h]

theorem stepState_of_not_body (n : Nat) (s : ScanState) (h : s.body_start = false) :
    stepState n s =
      { s with
        content_start := true,
        body_start := true,
        header_comment_end :=
          if s.header_comment_exists then some (n - 1)
          else s.header_comment_end } := by
  simp [stepState, h]

theorem preambleStep_new (n : Nat) (t : ScanState) (line : List Char)
    (rest : List (List Char)) (hl : preamble_line line = true)
    (hpe : t.preamble_exists = false) :
    preambleStep n t line rest =
      file_info_go (n + 1) { t with preamble_exists := true } rest := by
  simp [preambleStep, hl, hpe]

theorem preambleStep_inside (n : Nat) (t : ScanState) (line : List Char)
    (rest : List (List Char)) (hl : preamble_line line = true)
    (hpe : t.preamble_exists = true) :
    preambleStep n t line rest = file_info_go (n + 1) t rest := by
  simp [preambleStep, hl, hpe]

theorem preambleStep_break (n : Nat) (t : ScanState) (line : List Char)
    (rest : List (List Char)) (hl : preamble_line line = false)
    (hpe : t.preamble_exists = true) :
    preambleStep n t line rest = { t with preamble_end := some (n - 1) } := by
  simp [preambleStep, hl, hpe]

theorem preambleStep_before (n : Nat) (t : ScanState) (line : List Char)
    (rest : List (List Char)) (hl : preamble_line line = false)
    (hpe : t.preamble_exists = false) :
    preambleStep n t line rest = file_info_go (n + 1) t rest := by
  simp [preambleStep, hl, hpe]

theorem bool_eq_false {b : Bool} (h : ¬(b = true)) : b = false := by
  cases b
  · rfl
  · exact absurd rfl h

theorem set_content_eq (s : ScanState) (h : s.content_start = true) :
    ({ s with content_start := true } : ScanState) = s := by
  cases s
  simp_all

theorem stepState_content (n : Nat) (s : ScanState) :
    (stepState n s).content_start = true := by
  by_cases h : s.body_start = true
  · rw [stepState_of_body n s h]
  · rw [stepState_of_not_body n s (bool_eq_false h)]

theorem stepState_body (n : Nat) (s : ScanState) :
    (stepState n s).body_start = true := by
  by_cases h : s.body_start = true
  · rw [stepState_of_body n s h]; exact h
  · rw [stepState_of_not_body n s (bool_eq_false h)]

theorem stepState_pe (n : Nat) (s : ScanState) :
    (stepState n s).preamble_exists = s.preamble_exists := by
  by_cases h : s.body_start = true
  · rw [stepState_of_body n s h]
  · rw [stepState_of_not_body n s (bool_eq_false h)]

theorem stepState_pend (n : Nat) (s : ScanState) :
    (stepState n s).preamble_end = s.preamble_end := by
  by_cases h : s.body_start = true
  · rw [stepState_of_body n s h]
  · rw [stepState_of_not_body n s (bool_eq_false h)]

theorem stepState_hce (n : Nat) (s : ScanState) :
    (stepState n s).header_comment_exists = s.header_comment_exists := by
  by_cases h : s.body_start = true
  · rw [stepState_of_body n s h]
  · rw [stepState_of_not_body n s (bool_eq_false h)]

/-- Inside the preamble with the body started: a run of matching lines
followed by a non-matching line breaks the loop, recording the index of the
line before the break; nothing after the breaking line is ever examined. -/
theorem go_break (mid : List (List Char)) :
    ∀ (n : Nat) (s : ScanState) (nm : List Char) (rest : List (List Char)),
      s.content_start = true → s.body_start = true → s.preamble_exists = true →
      (∀ l ∈ mid, preamble_line l = true) →
      preamble_line nm = false →
      file_info_go n s (mid ++ nm :: rest) =
        { s with preamble_end := some (n + mid.length - 1) } := by
  induction mid with
  | nil =>
    intro n s nm rest hce hbs hpe _ hnm
    rw [List.nil_append]
    have h1 : ¬((!s.content_start && nm.all isWs) = true) := by simp [hce]
    have h2 : ¬((!s.body_start && re_comment_match nm) = true) := by simp [hbs]
    rw [go_cons_body n s nm rest h1 h2, stepState_of_body n s hbs,
      set_content_eq s hce, preambleStep_break n s nm rest hnm hpe]
    simp
  | cons l mid' ih =>
    intro n s nm rest hce hbs hpe hmid hnm
    have hl : preamble_line l = true := hmid l (List.mem_cons_self l mid')
    rw [List.cons_append]
    have h1 : ¬((!s.content_start && l.all isWs) = true) := by simp [hce]
    have h2 : ¬((!s.body_start && re_comment_match l) = true) := by simp [hbs]
    rw [go_cons_body n s l _ h1 h2, stepState_of_body n s hbs,
      set_content_eq s hce, preambleStep_inside n s l _ hl hpe,
      ih (n + 1) s nm rest hce hbs hpe
        (fun x hx => hmid x (List.mem_cons_of_mem l hx)) hnm]
    have harith : n + 1 + mid'.length - 1 = n + (l :: mid').length - 1 := by
      simp only [List.length_cons]
      omega
    rw [harith]

/-- Inside the preamble with the body started, lines that keep matching
leave the state unchanged. -/
theorem go_all_preamble (mid : List (List Char)) :
    ∀ (n : Nat) (s : ScanState),
      s.content_start = true → s.body_start = true → s.preamble_exists = true →
      (∀ l ∈ mid, preamble_line l = true) →
      file_info_go n s mid = s := by
  induction mid with
  | nil => intro n s _ _ _ _; rfl
  | cons l mid' ih =>
    intro n s hce hbs hpe hmid
    have hl := hmid l (List.mem_cons_self l mid')
    have h1 : ¬((!s.content_start && l.all isWs) = true) := by simp [hce]
    have h2 : ¬((!s.body_start && re_comment_match l) = true) := by simp [hbs]
    rw [go_cons_body n s l mid' h1 h2, stepState_of_body n s hbs,
      set_content_eq s hce, preambleStep_inside n s l mid' hl hpe]
    exact ih (n + 1) s hce hbs hpe (fun x hx => hmid x (List.mem_cons_of_mem l hx))

/-- While no import/module line has been seen and none arrives, the
preamble fields never change. -/
theorem go_no_match (lines : List (List Char)) :
    ∀ (n : Nat) (s : ScanState), s.preamble_exists = false →
      (∀ l ∈ lines, preamble_line l = false) →
      (file_info_go n s lines).preamble_exists = false ∧
        (file_info_go n s lines).preamble_end = s.preamble_end := by
  induction lines with
  | nil => intro n s h _; exact ⟨h, rfl⟩
  | cons line rest ih =>
    intro n s hpe hall
    have hline := hall line (List.mem_cons_self line rest)
    have hrest : ∀ l ∈ rest, preamble_line l = false :=
      fun l hl => hall l (List.mem_cons_of_mem line hl)
    by_cases h1 : (!s.content_start && line.all isWs) = true
    · rw [go_cons_skip n s line rest h1]
      exact ih (n + 1) s hpe hrest
    · by_cases h2 : (!s.body_start && re_comment_match line) = true
      · rw [go_cons_comment n s line rest h1 h2]
        exact ih (n + 1) _ hpe hrest
      · rw [go_cons_body n s line rest h1 h2]
        have hpe2 : (stepState n s).preamble_exists = false := by
          by_cases hbs : s.body_start = true
          · rw [stepState_of_body n s hbs]; exact hpe
          · rw [stepState_of_not_body n s (by simpa using hbs)]; exact hpe
        have hpend2 : (stepState n s).preamble_end = s.preamble_end := by
          by_cases hbs : s.body_start = true
          · rw [stepState_of_body n s hbs]
          · rw [stepState_of_not_body n s (by simpa using hbs)]
        rw [preambleStep_before n _ line rest hline hpe2]
        rw [← hpend2]
        exact ih (n + 1) _ hpe2 hrest

/-- Scanning lines of which none matches the preamble patterns neither
breaks nor touches the preamble fields: the scan continues after them, in
some state with the same preamble fields. -/
theorem go_prefix (pre : List (List Char)) :
    ∀ (n : Nat) (s : ScanState), s.preamble_exists = false →
      (∀ l ∈ pre, preamble_line l = false) →
      ∃ t : ScanState, t.preamble_exists = false ∧
        t.preamble_end = s.preamble_end ∧
        ∀ ys : List (List Char),
          file_info_go n s (pre ++ ys) = file_info_go (n + pre.length) t ys := by
  induction pre with
  | nil =>
    intro n s hpe _
    exact ⟨s, hpe, rfl, fun ys => by simp⟩
  | cons l pre' ih =>
    intro n s hpe hall
    have hl := hall l (List.mem_cons_self l pre')
    have hrest : ∀ x ∈ pre', preamble_line x = false :=
      fun x hx => hall x (List.mem_cons_of_mem l hx)
    have harith : n + 1 + pre'.length = n + (l :: pre').length := by
      simp only [List.length_cons]
      omega
    by_cases h1 : (!s.content_start && l.all isWs) = true
    · obtain ⟨t, ht1, ht2, ht3⟩ := ih (n + 1) s hpe hrest
      refine ⟨t, ht1, ht2, fun ys => ?_⟩
      rw [List.cons_append, go_cons_skip n s l _ h1, ht3 ys, harith]
    · by_cases h2 : (!s.body_start && re_comment_match l) = true
      · obtain ⟨t, ht1, ht2, ht3⟩ :=
          ih (n + 1) { s with content_start := true, header_comment_exists := true }
            hpe hrest
        refine ⟨t, ht1, ht2, fun ys => ?_⟩
        rw [List.cons_append, go_cons_comment n s l _ h1 h2, ht3 ys, harith]
      · obtain ⟨t, ht1, ht2, ht3⟩ := ih (n + 1) (stepState n s)
          (by rw [stepState_pe]; exact hpe) hrest
        refine ⟨t, ht1, by rw [ht2, stepState_pend], fun ys => ?_⟩
        rw [List.cons_append, go_cons_body n s l _ h1 h2,
          preambleStep_before n _ l _ hl (by rw [stepState_pe]; exact hpe),
          ht3 ys, harith]

/-- The first import/module line of the file: the loop continues past it
with content and body started, the preamble marked as existing, and the
preamble end unchanged. -/
theorem go_first_match (lj : List Char) (n : Nat) (s : ScanState)
    (hpe : s.preamble_exists = false) (hlj : preamble_line lj = true) :
    ∃ t : ScanState, t.content_start = true ∧ t.body_start = true ∧
      t.preamble_exists = true ∧ t.preamble_end = s.preamble_end ∧
      ∀ ys : List (List Char),
        file_info_go n s (lj :: ys) = file_info_go (n + 1) t ys := by
  have hblank : lj.all isWs = false := preamble_line_not_blank lj hlj
  have hcom : re_comment_match lj = false := preamble_not_comment lj hlj
  have h1 : ¬((!s.content_start && lj.all isWs) = true) := by simp [hblank]
  have h2 : ¬((!s.body_start && re_comment_match lj) = true) := by simp [hcom]
  refine ⟨{ stepState n s with preamble_exists := true },
    by rw [← stepState_content n s],
    by rw [← stepState_body n s],
    rfl,
    by rw [show ({ stepState n s with preamble_exists := true } : ScanState).preamble_end =
        (stepState n s).preamble_end from rfl, stepState_pend],
    fun ys => ?_⟩
  rw [go_cons_body n s lj ys h1 h2,
    preambleStep_new n (stepState n s) lj ys hlj (by rw [stepState_pe]; exact hpe)]

/-- The element at the index just before the break is the last line of the
matching run. -/
theorem getLast_preamble (mid : List (List Char)) :
    ∀ lj : List Char, preamble_line lj = true →
      (∀ l ∈ mid, preamble_line l = true) →
      preamble_line ((lj :: mid).getD mid.length []) = true := by
  induction mid with
  | nil => intro lj h _; simpa using h
  | cons m mid' ih =>
    intro lj h hall
    simpa using ih m (hall m (List.mem_cons_self m mid'))
      (fun x hx => hall x (List.mem_cons_of_mem m hx))

/-- C2: `file_info` treats the preamble as a contiguous region.  If no line
of the file matches the import or module-declaration pattern,
`preamble_exists` is false (and `preamble_end` stays `None`).  If a first
matching line is followed only by matching lines to end of file, the
preamble is still ongoing at end of file and `preamble_end` stays `None`.
If the first matching line is followed by a run of matching lines and then
a non-matching line at zero-based index `l_num = pre.length + 1 +
mid.length`, then `preamble_end = some (l_num - 1)`, that index holds the
last import/module line, and scanning stops immediately: lines after the
breaking line never influence the result. -/
theorem file_info_preamble_spec :
    (∀ content : List Char,
      (∀ l ∈ linesOf content, preamble_line l = false) →
      (file_info content).preamble_exists = false ∧
        (file_info content).preamble_end = none) ∧
    (∀ (content : List Char) (pre mid : List (List Char)) (lj : List Char),
      linesOf content = pre ++ lj :: mid →
      (∀ l ∈ pre, preamble_line l = false) →
      preamble_line lj = true →
      (∀ l ∈ mid, preamble_line l = true) →
      (file_info content).preamble_exists = true ∧
        (file_info content).preamble_end = none) ∧
    (∀ (content : List Char) (pre mid rest : List (List Char)) (lj nm : List Char),
      linesOf content = pre ++ lj :: (mid ++ nm :: rest) →
      (∀ l ∈ pre, preamble_line l = false) →
      preamble_line lj = true →
      (∀ l ∈ mid, preamble_line l = true) →
      preamble_line nm = false →
      (file_info content).preamble_exists = true ∧
        (file_info content).preamble_end = some (pre.length + mid.length) ∧
        preamble_line ((linesOf content).getD (pre.length + mid.length) []) = true ∧
        file_info content = file_info_lines (pre ++ lj :: (mid ++ [nm]))) := by
  refine ⟨?_, ?_, ?_⟩
  · intro content hall
    unfold file_info file_info_lines
    exact go_no_match (linesOf content) 0 initState rfl hall
  · intro content pre mid lj hdec hpre hlj hmid
    obtain ⟨t1, ht1pe, ht1pend, ht1⟩ := go_prefix pre 0 initState rfl hpre
    obtain ⟨t2, ht2ce, ht2bs, ht2pe, ht2pend, ht2⟩ :=
      go_first_match lj (0 + pre.length) t1 ht1pe hlj
    unfold file_info file_info_lines
    rw [hdec, ht1 (lj :: mid), ht2 mid,
      go_all_preamble mid _ t2 ht2ce ht2bs ht2pe hmid]
    exact ⟨ht2pe, by rw [ht2pend, ht1pend]; rfl⟩
  · intro content pre mid rest lj nm hdec hpre hlj hmid hnm
    obtain ⟨t1, ht1pe, ht1pend, ht1⟩ := go_prefix pre 0 initState rfl hpre
    obtain ⟨t2, ht2ce, ht2bs, ht2pe, ht2pend, ht2⟩ :=
      go_first_match lj (0 + pre.length) t1 ht1pe hlj
    have key : ∀ rest' : List (List Char),
        file_info_lines (pre ++ lj :: (mid ++ nm :: rest')) =
          { t2 with preamble_end := some (pre.length + mid.length) } := by
      intro rest'
      unfold file_info_lines
      rw [ht1 (lj :: (mid ++ nm :: rest')), ht2 (mid ++ nm :: rest'),
        go_break mid _ t2 nm rest' ht2ce ht2bs ht2pe hmid hnm]
      have harith : 0 + pre.length + 1 + mid.length - 1 = pre.length + mid.length := by
        omega
      rw [harith]
    have hfi : file_info content =
        { t2 with preamble_end := some (pre.length + mid.length) } := by
      unfold file_info
      rw [hdec]
      exact key rest
    refine ⟨by rw [hfi]; exact ht2pe, by rw [hfi], ?_, by rw [hfi, key []]⟩
    rw [hdec,
      show pre ++ lj :: (mid ++ nm :: rest) = pre ++ ((lj :: mid) ++ nm :: rest) from
        by simp,
      List.getD_append_right pre _ _ _ (Nat.le_add_right _ _),
      show pre.length + mid.length - pre.length = mid.length from by omega,
      List.getD_append _ _ _ _ (by simp)]
    exact getLast_preamble mid lj hlj hmid

/-- Witness for C2 at the concrete file `use a;\nmod x;\nfn y()\n`. -/
theorem file_info_preamble_spec_witness :
    (file_info ("use a;\nmod x;\nfn y()\n".toList)).preamble_exists = true ∧
      (file_info ("use a;\nmod x;\nfn y()\n".toList)).preamble_end = some 1 := by
  have h := file_info_preamble_spec.2.2 ("use a;\nmod x;\nfn y()\n".toList)
    [] ["mod x;".toList] [] "use a;".toList "fn y()".toList
    (by decide) (by decide) (by decide) (by decide) (by decide)
  exact ⟨h.1, by rw [h.2.1]; rfl⟩

/-- Leading fully-blank lines are skipped without any state change. -/
theorem go_blank_prefix (blanks : List (List Char)) :
    ∀ (n : Nat) (s : ScanState), s.content_start = false →
      (∀ l ∈ blanks, l.all isWs = true) →
      ∀ ys : List (List Char),
        file_info_go n s (blanks ++ ys) = file_info_go (n + blanks.length) s ys := by
  induction blanks with
  | nil => intro n s _ _ ys; simp
  | cons b bs ih =>
    intro n s hce hall ys
    have hb := hall b (List.mem_cons_self b bs)
    have h1 : (!s.content_start && b.all isWs) = true := by simp [hce, hb]
    have harith : n + 1 + bs.length = n + (b :: bs).length := by
      simp only [List.length_cons]
      omega
    rw [List.cons_append, go_cons_skip n s b _ h1,
      ih (n + 1) s hce (fun x hx => hall x (List.mem_cons_of_mem b hx)) ys, harith]

/-- A nonempty run of header comment lines before the body: content starts,
`header_comment_exists` is set, nothing else changes. -/
theorem go_comment_run (cs : List (List Char)) :
    ∀ (c : List Char) (n : Nat) (s : ScanState), s.body_start = false →
      re_comment_match c = true →
      (∀ l ∈ cs, re_comment_match l = true) →
      ∀ ys : List (List Char),
        file_info_go n s ((c :: cs) ++ ys) =
          file_info_go (n + cs.length + 1)
            { s with content_start := true, header_comment_exists := true } ys := by
  induction cs with
  | nil =>
    intro c n s hbs hc _ ys
    have hcb := comment_not_blank c hc
    have h1 : ¬((!s.content_start && c.all isWs) = true) := by simp [hcb]
    have h2 : (!s.body_start && re_comment_match c) = true := by simp [hbs, hc]
    rw [List.cons_append, List.nil_append, go_cons_comment n s c ys h1 h2]
    simp only [List.length_nil, Nat.add_zero]
  | cons c2 cs' ih =>
    intro c n s hbs hc hall ys
    have hcb := comment_not_blank c hc
    have h1 : ¬((!s.content_start && c.all isWs) = true) := by simp [hcb]
    have h2 : (!s.body_start && re_comment_match c) = true := by simp [hbs, hc]
    rw [List.cons_append, go_cons_comment n s c _ h1 h2]
    have hnext := ih c2 (n + 1)
      { s with content_start := true, header_comment_exists := true }
      hbs (hall c2 (List.mem_cons_self c2 cs'))
      (fun x hx => hall x (List.mem_cons_of_mem c2 hx)) ys
    rw [List.cons_append] at hnext ⊢
    rw [hnext]
    have harith : n + 1 + cs'.length + 1 = n + (c2 :: cs').length + 1 := by
      simp only [List.length_cons]
      omega
    rw [harith]

/-- Once the body has started, the header fields never change again. -/
theorem go_body_frozen (lines : List (List Char)) :
    ∀ (n : Nat) (s : ScanState), s.content_start = true → s.body_start = true →
      (file_info_go n s lines).header_comment_exists = s.header_comment_exists ∧
        (file_info_go n s lines).header_comment_end = s.header_comment_end := by
  induction lines with
  | nil => intro n s _ _; exact ⟨rfl, rfl⟩
  | cons line rest ih =>
    intro n s hce hbs
    have h1 : ¬((!s.content_start && line.all isWs) = true) := by simp [hce]
    have h2 : ¬((!s.body_start && re_comment_match line) = true) := by simp [hbs]
    rw [go_cons_body n s line rest h1 h2, stepState_of_body n s hbs,
      set_content_eq s hce]
    by_cases hpl : preamble_line line = true
    · by_cases hpe : s.preamble_exists = true
      · rw [preambleStep_inside n s line rest hpl hpe]
        exact ih (n + 1) s hce hbs
      · rw [preambleStep_new n s line rest hpl (bool_eq_false hpe)]
        exact ih (n + 1) _ hce hbs
    · have hpl' := bool_eq_false hpl
      by_cases hpe : s.preamble_exists = true
      · rw [preambleStep_break n s line rest hpl' hpe]
        exact ⟨rfl, rfl⟩
      · rw [preambleStep_before n s line rest hpl' (bool_eq_false hpe)]
        exact ih (n + 1) s hce hbs

/-- After leading blanks and a nonempty header comment run, a non-comment
line closes the header: `header_comment_exists` is true and
`header_comment_end` is the index of the last comment line, whatever lines
follow. -/
theorem file_info_lines_header_close (blanks cs rest : List (List Char))
    (c nc : List Char)
    (hb : ∀ l ∈ blanks, l.all isWs = true)
    (hc : re_comment_match c = true)
    (hcs : ∀ l ∈ cs, re_comment_match l = true)
    (hnc : re_comment_match nc = false) :
    (file_info_lines (blanks ++ (c :: cs) ++ nc :: rest)).header_comment_exists
        = true ∧
      (file_info_lines (blanks ++ (c :: cs) ++ nc :: rest)).header_comment_end
        = some (blanks.length + cs.length) := by
  unfold file_info_lines
  rw [List.append_assoc, go_blank_prefix blanks 0 initState rfl hb _,
    go_comment_run cs c (0 + blanks.length) initState rfl hc hcs _,
    show ({ initState with content_start := true, header_comment_exists := true } :
      ScanState) = ⟨true, false, false, true, none, none⟩ from rfl]
  have h1 : ¬((!(⟨true, false, false, true, none, none⟩ : ScanState).content_start
      && nc.all isWs) = true) := by simp
  have h2 : ¬((!(⟨true, false, false, true, none, none⟩ : ScanState).body_start
      && re_comment_match nc) = true) := by simp [hnc]
  rw [go_cons_body _ _ nc rest h1 h2,
    show stepState (0 + blanks.length + cs.length + 1)
        (⟨true, false, false, true, none, none⟩ : ScanState) =
      ⟨true, true, false, true, none,
        some (0 + blanks.length + cs.length + 1 - 1)⟩ from rfl]
  have hidx : 0 + blanks.length + cs.length + 1 - 1 = blanks.length + cs.length := by
    omega
  rw [hidx]
  by_cases hpl : preamble_line nc = true
  · rw [preambleStep_new _ _ nc rest hpl rfl]
    exact go_body_frozen rest _ _ rfl rfl
  · rw [preambleStep_before _ _ nc rest (bool_eq_false hpl) rfl]
    exact go_body_frozen rest _ _ rfl rfl

/-- Leading blanks and a header comment run reaching end of file:
`header_comment_exists` is true, `header_comment_end` stays `None`. -/
theorem file_info_lines_header_eof (blanks cs : List (List Char)) (c : List Char)
    (hb : ∀ l ∈ blanks, l.all isWs = true)
    (hc : re_comment_match c = true)
    (hcs : ∀ l ∈ cs, re_comment_match l = true) :
    (file_info_lines (blanks ++ (c :: cs))).header_comment_exists = true ∧
      (file_info_lines (blanks ++ (c :: cs))).header_comment_end = none := by
  unfold file_info_lines
  rw [show blanks ++ (c :: cs) = blanks ++ ((c :: cs) ++ []) from by simp,
    go_blank_prefix blanks 0 initState rfl hb _,
    go_comment_run cs c (0 + blanks.length) initState rfl hc hcs []]
  exact ⟨rfl, rfl⟩

/-- C3: `file_info` skips leading fully-blank lines, then counts the
consecutive comment lines as the header comment (`header_comment_exists`
becomes true); the first non-comment line, at zero-based index
`l_num = blanks.length + 1 + cs.length`, ends the header with
`header_comment_end = some (l_num - 1)`; if no non-comment line is ever
found, `header_comment_end` stays `None`.  In particular, a pure
header-comment block of `N` lines followed by non-comment content gives
`header_comment_exists = true` and `header_comment_end = some (N - 1)`. -/
theorem file_info_header_spec :
    (∀ (content : List Char) (blanks cs rest : List (List Char)) (c nc : List Char),
      linesOf content = blanks ++ (c :: cs) ++ nc :: rest →
      (∀ l ∈ blanks, l.all isWs = true) →
      re_comment_match c = true →
      (∀ l ∈ cs, re_comment_match l = true) →
      re_comment_match nc = false →
      (file_info content).header_comment_exists = true ∧
        (file_info content).header_comment_end = some (blanks.length + cs.length)) ∧
    (∀ (content : List Char) (blanks cs : List (List Char)) (c : List Char),
      linesOf content = blanks ++ (c :: cs) →
      (∀ l ∈ blanks, l.all isWs = true) →
      re_comment_match c = true →
      (∀ l ∈ cs, re_comment_match l = true) →
      (file_info content).header_comment_exists = true ∧
        (file_info content).header_comment_end = none) ∧
    (∀ (content : List Char) (cs rest : List (List Char)) (c nc : List Char),
      linesOf content = (c :: cs) ++ nc :: rest →
      re_comment_match c = true →
      (∀ l ∈ cs, re_comment_match l = true) →
      re_comment_match nc = false →
      (file_info content).header_comment_exists = true ∧
        (file_info content).header_comment_end = some ((c :: cs).length - 1)) := by
  refine ⟨?_, ?_, ?_⟩
  · intro content blanks cs rest c nc hdec hb hc hcs hnc
    unfold file_info
    rw [hdec]
    exact file_info_lines_header_close blanks cs rest c nc hb hc hcs hnc
  · intro content blanks cs c hdec hb hc hcs
    unfold file_info
    rw [hdec]
    exact file_info_lines_header_eof blanks cs c hb hc hcs
  · intro content cs rest c nc hdec hc hcs hnc
    unfold file_info
    rw [hdec, show (c :: cs) ++ nc :: rest = [] ++ (c :: cs) ++ nc :: rest from rfl]
    have h := file_info_lines_header_close [] cs rest c nc (by simp) hc hcs hnc
    refine ⟨h.1, ?_⟩
    rw [h.2]
    simp only [List.length_nil, List.length_cons, Nat.zero_add, Nat.add_sub_cancel]

/-- Witness for C3 at the concrete file `// a\n// b\nfn f()\n`. -/
theorem file_info_header_spec_witness :
    (file_info ("// a\n// b\nfn f()\n".toList)).header_comment_exists = true ∧
      (file_info ("// a\n// b\nfn f()\n".toList)).header_comment_end = some 1 := by
  have h := file_info_header_spec.2.2 ("// a\n// b\nfn f()\n".toList)
    ["// b".toList] [] "// a".toList "fn f()".toList
    (by decide) (by decide) (by decide) (by decide)
  exact ⟨h.1, by rw [h.2]; rfl⟩

/-! ### Behaviour of the insertion copy loop -/

theorem render_append (a b : List (List Char)) :
    render (a ++ b) = render a ++ render b := by
  induction a with
  | nil => simp [render]
  | cons l ls ih => simp [render, ih]

theorem copyLoop_none (mod_str : List Char) (ls : List (List Char)) :
    ∀ n : Nat, copyLoop mod_str none n ls = render ls := by
  induction ls with
  | nil => intro n; rfl
  | cons l ls ih =>
    intro n
    simp [copyLoop, render, ih (n + 1)]

theorem copyLoop_past (mod_str : List Char) (i : Nat) (ls : List (List Char)) :
    ∀ n : Nat, i < n → copyLoop mod_str (some i) n ls = render ls := by
  induction ls with
  | nil => intro n _; rfl
  | cons l ls ih =>
    intro n hin
    have hne : ¬(some i = some n) := by simp; omega
    simp [copyLoop, render, hne, ih (n + 1) (by omega)]

theorem copyLoop_at (mod_str : List Char) (ls : List (List Char)) :
    ∀ i n : Nat, n ≤ i → i - n < ls.length →
      copyLoop mod_str (some i) n ls =
        render (insertLine mod_str (i - n) ls) := by
  induction ls with
  | nil => intro i n _ h; simp at h
  | cons l ls ih =>
    intro i n hni h
    by_cases hin : i = n
    · subst hin
      simp only [copyLoop, if_pos rfl]
      rw [copyLoop_past mod_str i ls (i + 1) (by omega), Nat.sub_self]
      simp [insertLine, render]
    · have hlt : n < i := by omega
      have hne : ¬((some i : Option Nat) = some n) := by simp; omega
      have hrw : i - n = (i - (n + 1)) + 1 := by omega
      simp only [copyLoop, if_neg hne]
      rw [ih i (n + 1) (by omega) (by simp only [List.length_cons] at h; omega),
        hrw]
      simp [insertLine, render]

/-! ### The policy always computes an in-range insertion point -/

theorem linesOfAux_ne_nil (cs : List Char) :
    ∀ acc : List Char, linesOfAux acc cs ≠ [] := by
  induction cs with
  | nil => intro acc; simp [linesOfAux]
  | cons c rest ih =>
    intro acc
    by_cases h : c = '\n'
    · subst h
      cases rest with
      | nil => simp [linesOfAux]
      | cons d ds => simp [linesOfAux]
    · simp only [linesOfAux]
      rw [if_neg h]
      exact ih (c :: acc)

theorem linesOf_ne_nil (content : List Char) (h : content ≠ []) :
    linesOf content ≠ [] := by
  cases content with
  | nil => exact absurd rfl h
  | cons c rest => exact linesOfAux_ne_nil (c :: rest) []

/-- Whenever the scan reports a preamble end, it is the index of an
existing line (so inserting at the following index stays in range). -/
theorem go_pend_bound (lines : List (List Char)) :
    ∀ (n : Nat) (s : ScanState),
      (s.preamble_exists = true → 1 ≤ n) →
      s.preamble_end = none →
      ∀ e : Nat, (file_info_go n s lines).preamble_end = some e →
        e + 1 < n + lines.length := by
  induction lines with
  | nil =>
    intro n s _ hpend e he
    rw [go_nil, hpend] at he
    simp at he
  | cons line rest ih =>
    intro n s hpe hpend e he
    simp only [List.length_cons]
    by_cases h1 : (!s.content_start && line.all isWs) = true
    · rw [go_cons_skip n s line rest h1] at he
      have := ih (n + 1) s (fun _ => by omega) hpend e he
      omega
    · by_cases h2 : (!s.body_start && re_comment_match line) = true
      · rw [go_cons_comment n s line rest h1 h2] at he
        have := ih (n + 1)
          { s with content_start := true, header_comment_exists := true }
          (fun _ => by omega)
          (show ({ s with content_start := true, header_comment_exists := true} :
            ScanState).preamble_end = none from hpend) e he
        omega
      · rw [go_cons_body n s line rest h1 h2] at he
        have htpend : (stepState n s).preamble_end = none := by
          rw [stepState_pend]
          exact hpend
        by_cases hpl : preamble_line line = true
        · by_cases hpex : (stepState n s).preamble_exists = true
          · rw [preambleStep_inside n _ line rest hpl hpex] at he
            have := ih (n + 1) _ (fun _ => by omega) htpend e he
            omega
          · rw [preambleStep_new n _ line rest hpl (bool_eq_false hpex)] at he
            have := ih (n + 1) { stepState n s with preamble_exists := true }
              (fun _ => by omega)
              (show ({ stepState n s with preamble_exists := true } :
                ScanState).preamble_end = none from htpend) e he
            omega
        · by_cases hpex : (stepState n s).preamble_exists = true
          · rw [preambleStep_break n _ line rest (bool_eq_false hpl) hpex] at he
            have hn : 1 ≤ n := by
              apply hpe
              rw [← stepState_pe n s]
              exact hpex
            have he2 : some (n - 1) = some e := he
            injection he2 with hv
            omega
          · rw [preambleStep_before n _ line rest (bool_eq_false hpl)
              (bool_eq_false hpex)] at he
            have := ih (n + 1) _ (fun _ => by omega) htpend e he
            omega

/-- Whenever the scan reports a header comment end, it is the index of an
existing line. -/
theorem go_hcend_bound (lines : List (List Char)) :
    ∀ (n : Nat) (s : ScanState),
      (s.header_comment_exists = true → 1 ≤ n) →
      s.header_comment_end = none →
      s.body_start = false →
      ∀ e : Nat, (file_info_go n s lines).header_comment_end = some e →
        e + 1 < n + lines.length := by
  induction lines with
  | nil =>
    intro n s _ hcend _ e he
    rw [go_nil, hcend] at he
    simp at he
  | cons line rest ih =>
    intro n s hhce hcend hbs e he
    simp only [List.length_cons]
    by_cases h1 : (!s.content_start && line.all isWs) = true
    · rw [go_cons_skip n s line rest h1] at he
      have := ih (n + 1) s (fun _ => by omega) hcend hbs e he
      omega
    · by_cases h2 : (!s.body_start && re_comment_match line) = true
      · rw [go_cons_comment n s line rest h1 h2] at he
        have := ih (n + 1)
          { s with content_start := true, header_comment_exists := true }
          (fun _ => by omega)
          (show ({ s with content_start := true, header_comment_exists := true } :
            ScanState).header_comment_end = none from hcend)
          (show ({ s with content_start := true, header_comment_exists := true } :
            ScanState).body_start = false from hbs) e he
        omega
      · rw [go_cons_body n s line rest h1 h2] at he
        have htc := stepState_content n s
        have htb := stepState_body n s
        have hred : (stepState n s).header_comment_end = some e := by
          by_cases hpl : preamble_line line = true
          · by_cases hpex : (stepState n s).preamble_exists = true
            · rw [preambleStep_inside n _ line rest hpl hpex,
                (go_body_frozen rest (n + 1) _ htc htb).2] at he
              exact he
            · rw [preambleStep_new n _ line rest hpl (bool_eq_false hpex),
                (go_body_frozen rest (n + 1)
                  { stepState n s with preamble_exists := true }
                  (by exact htc) (by exact htb)).2] at he
              exact he
          · by_cases hpex : (stepState n s).preamble_exists = true
            · rw [preambleStep_break n _ line rest (bool_eq_false hpl) hpex] at he
              exact he
            · rw [preambleStep_before n _ line rest (bool_eq_false hpl)
                (bool_eq_false hpex),
                (go_body_frozen rest (n + 1) _ htc htb).2] at he
              exact he
        rw [stepState_of_not_body n s hbs] at hred
        by_cases hhc : s.header_comment_exists = true
        · have hn : 1 ≤ n := hhce hhc
          rw [show ({ s with
              content_start := true,
              body_start := true,
              header_comment_end :=
                if s.header_comment_exists then some (n - 1)
                else s.header_comment_end } : ScanState).header_comment_end =
              (if s.header_comment_exists then some (n - 1)
                else s.header_comment_end) from rfl,
            hhc, if_pos rfl] at hred
          injection hred with hv
          omega
        · rw [show ({ s with
              content_start := true,
              body_start := true,
              header_comment_end :=
                if s.header_comment_exists then some (n - 1)
                else s.header_comment_end } : ScanState).header_comment_end =
              (if s.header_comment_exists then some (n - 1)
                else s.header_comment_end) from rfl,
            bool_eq_false hhc] at hred
          simp only [Bool.false_eq_true, if_false] at hred
          rw [hcend] at hred
          simp at hred


/-- C4: the file rewritten by `insert_mod_at_line` is the original file's
line sequence with exactly one new module-declaration line inserted at the
computed index (appended at the end for `None`), every other line preserved
as read; and every insertion point the classification policy computes is in
range for its file (so the inserted-at-index description applies to every
policy-computed insertion point: `some i` with `i` in range on nonempty
files, `some 0` on the empty file, or `None`). -/
theorem insert_mod_at_line_content :
    (∀ (mod_name content : List Char) (public : Bool) (i : Nat),
      i < (linesOf content).length →
      insert_mod_at_line mod_name (some i) public content =
        render (insertLine (mod_line mod_name public) i (linesOf content))) ∧
    (∀ (mod_name content : List Char) (public : Bool),
      insert_mod_at_line mod_name none public content =
        render (linesOf content ++ [mod_line mod_name public])) ∧
    (∀ (mod_name : List Char) (public : Bool),
      insert_mod_at_line mod_name (some 0) public [] =
        render (insertLine (mod_line mod_name public) 0 (linesOf []))) ∧
    (∀ (content : List Char) (i : Nat), content ≠ [] →
      add_module_to_insert (file_info content).preamble_exists
          (file_info content).preamble_end
          (file_info content).header_comment_exists
          (file_info content).header_comment_end = some i →
      i < (linesOf content).length) := by
  refine ⟨?_, ?_, ?_, ?_⟩
  · intro mod_name content public i hi
    have hcne : content ≠ [] := by
      intro hc
      subst hc
      simp [linesOf] at hi
    have hcond : ¬((some i = none) ∨ content.length = 0) := by
      intro hc
      rcases hc with hc | hc
      · simp at hc
      · exact hcne (List.length_eq_zero.mp hc)
    simp only [insert_mod_at_line]
    rw [if_neg hcond]
    simpa using copyLoop_at (mod_line mod_name public) (linesOf content) i 0
      (Nat.zero_le i) (by simpa using hi)
  · intro mod_name content public
    simp only [insert_mod_at_line]
    rw [if_pos (Or.inl trivial), copyLoop_none, render_append]
    simp [render]
  · intro mod_name public
    cases public <;> rfl
  · intro content i hne hins
    have hlen : linesOf content ≠ [] := linesOf_ne_nil content hne
    have hlen0 : 0 < (linesOf content).length := by
      cases hl : linesOf content with
      | nil => exact absurd hl hlen
      | cons a b => simp
    unfold add_module_to_insert at hins
    by_cases hpe : (file_info content).preamble_exists = true
    · rw [if_pos hpe] at hins
      cases hpend : (file_info content).preamble_end with
      | none => rw [hpend] at hins; simp at hins
      | some e =>
        rw [hpend] at hins
        simp only [Option.isNone_some, Option.get!] at hins
        have hb := go_pend_bound (linesOf content) 0 initState
          (by intro h; exact absurd h (by decide)) rfl e
          (by unfold file_info file_info_lines at hpend; exact hpend)
        have := hb
        simp only [Nat.zero_add] at this
        have hie : some (e + 1) = some i := by
          rw [← hins]
          rfl
        injection hie with hie
        omega
    · rw [if_neg hpe] at hins
      by_cases hhce : (file_info content).header_comment_exists = true
      · rw [if_pos hhce] at hins
        cases hcend : (file_info content).header_comment_end with
        | none => rw [hcend] at hins; simp at hins
        | some e =>
          rw [hcend] at hins
          simp only [Option.isNone_some, Option.get!] at hins
          have hb := go_hcend_bound (linesOf content) 0 initState
            (by intro h; exact absurd h (by decide)) rfl rfl e
            (by unfold file_info file_info_lines at hcend; exact hcend)
          simp only [Nat.zero_add] at hb
          have hie : some (e + 1) = some i := by
            rw [← hins]
            rfl
          injection hie with hie
          omega
      · rw [if_neg hhce] at hins
        injection hins with hins
        omega

/-- Witness for C4 at a concrete file and insertion point. -/
theorem insert_mod_at_line_content_witness :
    insert_mod_at_line "y".toList (some 1) true "a\nb\n".toList =
      "a\npub mod y;\nb\n".toList := by
  have h := insert_mod_at_line_content.1 "y".toList "a\nb\n".toList true 1 (by decide)
  rw [h]
  decide

/-! ### Line-ending normalization -/

theorem linesOf_eq_aux (cs : List Char) (h : cs ≠ []) :
    linesOf cs = linesOfAux [] cs := by
  cases cs with
  | nil => exact absurd rfl h
  | cons c r => rfl

theorem finishLine_reverse (l : List Char) (h : l.getLast? ≠ some '\r') :
    finishLine l.reverse = l := by
  cases hl : l.reverse with
  | nil =>
    have hnil : l = [] := by
      have := congrArg List.reverse hl
      simpa using this
    subst hnil
    rfl
  | cons c a =>
    have hc : c ≠ '\r' := by
      intro hceq
      apply h
      rw [← List.head?_reverse, hl, hceq]
      rfl
    simp only [finishLine]
    rw [if_neg hc, ← hl, List.reverse_reverse]

theorem finishLine_cr (l : List Char) :
    finishLine ((l ++ ['\r']).reverse) = l := by
  have hrw : (l ++ ['\r']).reverse = '\r' :: l.reverse := by simp
  rw [hrw]
  simp [finishLine]

theorem linesOfAux_no_newline (l : List Char) :
    ∀ acc : List Char, '\n' ∉ l → linesOfAux acc l = [acc.reverse ++ l] := by
  induction l with
  | nil => intro acc _; simp [linesOfAux]
  | cons c rest ih =>
    intro acc hnl
    have hc : c ≠ '\n' := fun h => hnl (h ▸ List.mem_cons_self c rest)
    simp only [linesOfAux]
    rw [if_neg hc, ih (c :: acc) (fun h => hnl (List.mem_cons_of_mem c h))]
    simp

theorem linesOfAux_cons_ne (c : Char) (acc rest : List Char) (hc : c ≠ '\n') :
    linesOfAux acc (c :: rest) = linesOfAux (c :: acc) rest := by
  simp only [linesOfAux]
  rw [if_neg hc]

theorem linesOfAux_newline_last (acc : List Char) :
    linesOfAux acc ['\n'] = [finishLine acc] := by
  simp [linesOfAux]

theorem linesOfAux_newline_cons (acc : List Char) (d : Char) (ds : List Char) :
    linesOfAux acc ('\n' :: d :: ds) = finishLine acc :: linesOfAux [] (d :: ds) := by
  simp [linesOfAux]

theorem linesOfAux_line_last (l : List Char) :
    ∀ acc : List Char, '\n' ∉ l →
      linesOfAux acc (l ++ ['\n']) = [finishLine (l.reverse ++ acc)] := by
  induction l with
  | nil => intro acc _; simp [linesOfAux_newline_last]
  | cons c cs ih =>
    intro acc hnl
    have hc : c ≠ '\n' := fun h => hnl (h ▸ List.mem_cons_self c cs)
    rw [List.cons_append, linesOfAux_cons_ne c acc _ hc,
      ih (c :: acc) (fun h => hnl (List.mem_cons_of_mem c h))]
    have hrw : cs.reverse ++ c :: acc = (c :: cs).reverse ++ acc := by simp
    rw [hrw]

theorem linesOfAux_line_cons (l : List Char) :
    ∀ (acc : List Char) (d : Char) (ds : List Char), '\n' ∉ l →
      linesOfAux acc (l ++ '\n' :: d :: ds) =
        finishLine (l.reverse ++ acc) :: linesOfAux [] (d :: ds) := by
  induction l with
  | nil =>
    intro acc d ds _
    rw [List.nil_append, linesOfAux_newline_cons]
    simp
  | cons c cs ih =>
    intro acc d ds hnl
    have hc : c ≠ '\n' := fun h => hnl (h ▸ List.mem_cons_self c cs)
    rw [List.cons_append, linesOfAux_cons_ne c acc _ hc,
      ih (c :: acc) d ds (fun h => hnl (List.mem_cons_of_mem c h))]
    have hrw : cs.reverse ++ c :: acc = (c :: cs).reverse ++ acc := by simp
    rw [hrw]

/-- `linesOf` inverts the LF rendering on good lines. -/
theorem linesOf_render (ls : List (List Char)) :
    (∀ l ∈ ls, goodLine l) → linesOf (render ls) = ls := by
  induction ls with
  | nil => intro _; rfl
  | cons l ls ih =>
    intro hall
    obtain ⟨hnl, hcr⟩ := hall l (List.mem_cons_self l ls)
    have hfin : finishLine (l.reverse ++ []) = l := by
      rw [List.append_nil]
      exact finishLine_reverse l hcr
    cases ls with
    | nil =>
      rw [show render [l] = l ++ ['\n'] from by simp [render],
        linesOf_eq_aux _ (by cases l <;> simp),
        linesOfAux_line_last l [] hnl, hfin]
    | cons l2 ls2 =>
      obtain ⟨d, ds, hd⟩ : ∃ d ds, render (l2 :: ls2) = d :: ds := by
        cases l2 <;> exact ⟨_, _, rfl⟩
      rw [show render (l :: l2 :: ls2) = l ++ '\n' :: render (l2 :: ls2) from rfl,
        hd, linesOf_eq_aux _ (by cases l <;> simp),
        linesOfAux_line_cons l [] d ds hnl, hfin, ← hd,
        ← linesOf_eq_aux _ (by rw [hd]; simp),
        ih (fun x hx => hall x (List.mem_cons_of_mem l hx))]

/-- `linesOf` inverts the CRLF rendering on good lines: the carriage
returns are stripped. -/
theorem linesOf_renderCRLF (ls : List (List Char)) :
    (∀ l ∈ ls, goodLine l) → linesOf (renderCRLF ls) = ls := by
  induction ls with
  | nil => intro _; rfl
  | cons l ls ih =>
    intro hall
    obtain ⟨hnl, _⟩ := hall l (List.mem_cons_self l ls)
    have hnl' : '\n' ∉ l ++ ['\r'] := by
      intro hx
      rcases List.mem_append.mp hx with hx | hx
      · exact hnl hx
      · simp at hx
    have hfin : finishLine ((l ++ ['\r']).reverse ++ []) = l := by
      rw [List.append_nil]
      exact finishLine_cr l
    have hshape : renderCRLF (l :: ls) = (l ++ ['\r']) ++ '\n' :: renderCRLF ls := by
      simp [renderCRLF]
    cases ls with
    | nil =>
      rw [hshape, show renderCRLF [] = [] from rfl,
        linesOf_eq_aux _ (by cases l <;> simp),
        linesOfAux_line_last (l ++ ['\r']) [] hnl', hfin]
    | cons l2 ls2 =>
      obtain ⟨d, ds, hd⟩ : ∃ d ds, renderCRLF (l2 :: ls2) = d :: ds := by
        cases l2 <;> exact ⟨_, _, rfl⟩
      rw [hshape, hd, linesOf_eq_aux _ (by cases l <;> simp),
        linesOfAux_line_cons (l ++ ['\r']) [] d ds hnl', hfin, ← hd,
        ← linesOf_eq_aux _ (by rw [hd]; simp),
        ih (fun x hx => hall x (List.mem_cons_of_mem l hx))]

theorem renderNoFinal_ne_nil (ls : List (List Char)) (h : ls ≠ [])
    (hlast : ls.getLast? ≠ some []) : renderNoFinal ls ≠ [] := by
  cases ls with
  | nil => exact absurd rfl h
  | cons l ls2 =>
    cases ls2 with
    | nil =>
      intro hx
      apply hlast
      rw [show renderNoFinal [l] = l from rfl] at hx
      rw [hx]
      rfl
    | cons l2 ls3 =>
      rw [show renderNoFinal (l :: l2 :: ls3) = l ++ '\n' :: renderNoFinal (l2 :: ls3)
        from rfl]
      cases l <;> simp

/-- `linesOf` inverts the LF rendering without a final newline, provided
the last line is nonempty. -/
theorem linesOf_renderNoFinal (ls : List (List Char)) :
    (∀ l ∈ ls, goodLine l) → ls.getLast? ≠ some [] →
      linesOf (renderNoFinal ls) = ls := by
  induction ls with
  | nil => intro _ _; rfl
  | cons l ls ih =>
    intro hall hlast
    obtain ⟨hnl, _⟩ := hall l (List.mem_cons_self l ls)
    cases ls with
    | nil =>
      have hlne : l ≠ [] := by
        intro hx
        apply hlast
        rw [hx]
        rfl
      rw [show renderNoFinal [l] = l from rfl, linesOf_eq_aux _ hlne,
        linesOfAux_no_newline l [] hnl]
      simp
    | cons l2 ls2 =>
      have hlast2 : (l2 :: ls2).getLast? ≠ some [] := by
        rw [← List.getLast?_cons_cons]
        exact hlast
      have hne2 : renderNoFinal (l2 :: ls2) ≠ [] :=
        renderNoFinal_ne_nil (l2 :: ls2) (by simp) hlast2
      obtain ⟨d, ds, hd⟩ : ∃ d ds, renderNoFinal (l2 :: ls2) = d :: ds := by
        cases hx : renderNoFinal (l2 :: ls2) with
        | nil => exact absurd hx hne2
        | cons d ds => exact ⟨d, ds, rfl⟩
      have hfin : finishLine (l.reverse ++ []) = l := by
        rw [List.append_nil]
        exact finishLine_reverse l (hall l (List.mem_cons_self l (l2 :: ls2))).2
      rw [show renderNoFinal (l :: l2 :: ls2) = l ++ '\n' :: renderNoFinal (l2 :: ls2)
          from rfl, hd,
        linesOf_eq_aux _ (by cases l <;> simp),
        linesOfAux_line_cons l [] d ds hnl, hfin, ← hd,
        ← linesOf_eq_aux _ (by rw [hd]; simp),
        ih (fun x hx => hall x (List.mem_cons_of_mem l hx)) hlast2]

theorem render_eq_nil_iff (ls : List (List Char)) : render ls = [] ↔ ls = [] := by
  cases ls with
  | nil => simp [render]
  | cons l ls2 => cases l <;> simp [render]

theorem renderCRLF_eq_nil_iff (ls : List (List Char)) :
    renderCRLF ls = [] ↔ ls = [] := by
  cases ls with
  | nil => simp [renderCRLF]
  | cons l ls2 => cases l <;> simp [renderCRLF]

/-- The output of `insert_mod_at_line` is always an LF rendering of a line
list. -/
theorem copyLoop_is_render (mod_str : List Char) (insert : Option Nat)
    (ls : List (List Char)) :
    ∀ n : Nat, ∃ out : List (List Char), copyLoop mod_str insert n ls = render out := by
  induction ls with
  | nil => intro n; exact ⟨[], rfl⟩
  | cons l rest ih =>
    intro n
    obtain ⟨out, hout⟩ := ih (n + 1)
    by_cases h : insert = some n
    · refine ⟨mod_str :: l :: out, ?_⟩
      rw [h] at hout
      simp [copyLoop, h, render, hout]
    · exact ⟨l :: out, by simp [copyLoop, h, render, hout]⟩

theorem insert_mod_is_render (mod_name content : List Char) (insert : Option Nat)
    (public : Bool) :
    ∃ out : List (List Char),
      insert_mod_at_line mod_name insert public content = render out := by
  obtain ⟨out, hout⟩ :=
    copyLoop_is_render (mod_line mod_name public) insert (linesOf content) 0
  simp only [insert_mod_at_line]
  by_cases h : insert = none ∨ content.length = 0
  · refine ⟨out ++ [mod_line mod_name public], ?_⟩
    rw [if_pos h, hout, render_append]
    simp [render]
  · refine ⟨out, ?_⟩
    rw [if_neg h, hout]

/-- `insert_mod_at_line` depends on its input only through the line reader
(and emptiness). -/
theorem insert_mod_congr (mod_name c1 c2 : List Char) (insert : Option Nat)
    (public : Bool) (hl : linesOf c1 = linesOf c2) (he : c1 = [] ↔ c2 = []) :
    insert_mod_at_line mod_name insert public c1 =
      insert_mod_at_line mod_name insert public c2 := by
  simp only [insert_mod_at_line]
  rw [hl]
  have hcond : (insert = none ∨ c1.length = 0) ↔ (insert = none ∨ c2.length = 0) := by
    constructor
    · intro h
      rcases h with h | h
      · exact Or.inl h
      · exact Or.inr (by rw [List.length_eq_zero] at h ⊢; exact he.mp h)
    · intro h
      rcases h with h | h
      · exact Or.inl h
      · exact Or.inr (by rw [List.length_eq_zero] at h ⊢; exact he.mpr h)
  by_cases h : insert = none ∨ c2.length = 0
  · rw [if_pos h, if_pos (hcond.mpr h)]
  · rw [if_neg h, if_neg (fun hx => h (hcond.mp hx))]

/-- C10: every line of the file rewritten by `insert_mod_at_line` is
terminated with a single LF: the output is an LF rendering of a line list;
the rewrite depends on the original only through the line reader, so CRLF
line endings become LF and a missing newline after the final line is added
— two originals differing only in these respects yield identical rewritten
files, and the verbatim-preservation guarantee holds only up to this
normalization. -/
theorem insert_mod_at_line_normalizes :
    (∀ (mod_name content : List Char) (insert : Option Nat) (public : Bool),
      ∃ out : List (List Char),
        insert_mod_at_line mod_name insert public content = render out) ∧
    (∀ (mod_name c1 c2 : List Char) (insert : Option Nat) (public : Bool),
      linesOf c1 = linesOf c2 → (c1 = [] ↔ c2 = []) →
      insert_mod_at_line mod_name insert public c1 =
        insert_mod_at_line mod_name insert public c2) ∧
    (∀ (mod_name : List Char) (ls : List (List Char)) (insert : Option Nat)
        (public : Bool),
      (∀ l ∈ ls, goodLine l) →
      insert_mod_at_line mod_name insert public (renderCRLF ls) =
        insert_mod_at_line mod_name insert public (render ls)) ∧
    (∀ (mod_name : List Char) (ls : List (List Char)) (insert : Option Nat)
        (public : Bool),
      (∀ l ∈ ls, goodLine l) → ls.getLast? ≠ some [] →
      insert_mod_at_line mod_name insert public (renderNoFinal ls) =
        insert_mod_at_line mod_name insert public (render ls)) := by
  refine ⟨fun mod_name content insert public =>
      insert_mod_is_render mod_name content insert public,
    fun mod_name c1 c2 insert public hl he =>
      insert_mod_congr mod_name c1 c2 insert public hl he, ?_, ?_⟩
  · intro mod_name ls insert public hgood
    apply insert_mod_congr
    · rw [linesOf_renderCRLF ls hgood, linesOf_render ls hgood]
    · rw [renderCRLF_eq_nil_iff, render_eq_nil_iff]
  · intro mod_name ls insert public hgood hlast
    apply insert_mod_congr
    · rw [linesOf_renderNoFinal ls hgood hlast, linesOf_render ls hgood]
    · constructor
      · intro h
        by_cases hls : ls = []
        · rw [hls]
          rfl
        · exact absurd h (renderNoFinal_ne_nil ls hls hlast)
      · intro h
        rw [(render_eq_nil_iff ls).mp h]
        rfl

/-- Witness for C10: a CRLF original and its LF normalization produce the
same rewritten file. -/
theorem insert_mod_at_line_normalizes_witness :
    insert_mod_at_line "y".toList (some 1) true ("a\r\nb\r\n".toList) =
      insert_mod_at_line "y".toList (some 1) true ("a\nb\n".toList) := by
  have h := insert_mod_at_line_normalizes.2.2.1 "y".toList
    ["a".toList, "b".toList] (some 1) true (by decide)
  have h1 : renderCRLF ["a".toList, "b".toList] = "a\r\nb\r\n".toList := by decide
  have h2 : render ["a".toList, "b".toList] = "a\nb\n".toList := by decide
  rw [← h1, ← h2]
  exact h

/-! ### The effect model: failure safety and the single final rename -/

theorem loopOps_no_rename (mod_str : List Char) (insert : Option Nat)
    (ls : List (List Char)) :
    ∀ n : Nat, FsOp.renameTmp ∉ loopOps mod_str insert n ls := by
  induction ls with
  | nil => intro n; simp [loopOps]
  | cons l rest ih =>
    intro n hmem
    simp only [loopOps, List.mem_cons, List.mem_append] at hmem
    rcases hmem with h | h | h | h
    · simp at h
    · by_cases hins : insert = some n
      · rw [if_pos hins] at h
        simp at h
      · rw [if_neg hins] at h
        simp at h
    · simp at h
    · exact ih (n + 1) h

theorem insertOps_shape (mod_name : List Char) (insert : Option Nat) (public : Bool)
    (content : List Char) :
    ∃ pre : List FsOp,
      insertOps mod_name insert public content = pre ++ [FsOp.renameTmp] ∧
        FsOp.renameTmp ∉ pre := by
  refine ⟨FsOp.mkTemp :: FsOp.openTarget :: FsOp.readMeta ::
    (loopOps (mod_line mod_name public) insert 0 (linesOf content) ++
      (if insert = none ∨ content.length = 0
        then [FsOp.writeTmp (mod_line mod_name public ++ ['\n'])] else [])), ?_, ?_⟩
  · simp [insertOps]
  · intro hmem
    simp only [List.mem_cons, List.mem_append] at hmem
    rcases hmem with h | h | h | h | h
    · simp at h
    · simp at h
    · simp at h
    · exact loopOps_no_rename _ _ _ 0 h
    · by_cases hins : insert = none ∨ content.length = 0
      · rw [if_pos hins] at h
        simp at h
      · rw [if_neg hins] at h
        simp at h

theorem runOps_fail (ops : List FsOp) :
    ∀ (k : Nat) (fs : FsState), k < ops.length →
      runOps fs ops (some k) =
        (false, dropTmp (List.foldl applyOp fs (ops.take k))) := by
  induction ops with
  | nil => intro k fs hk; simp at hk
  | cons op rest ih =>
    intro k fs hk
    cases k with
    | zero => simp [runOps]
    | succ k' =>
      rw [show runOps fs (op :: rest) (some (k' + 1)) =
          runOps (applyOp fs op) rest (some k') from rfl,
        ih k' (applyOp fs op) (by simpa using Nat.lt_of_succ_lt_succ hk)]
      rfl

theorem runOps_none (ops : List FsOp) :
    ∀ fs : FsState, runOps fs ops none = (true, List.foldl applyOp fs ops) := by
  induction ops with
  | nil => intro fs; rfl
  | cons op rest ih => intro fs; exact ih (applyOp fs op)

theorem foldl_applyOp_target (ops : List FsOp) :
    ∀ fs : FsState, FsOp.renameTmp ∉ ops →
      (List.foldl applyOp fs ops).target = fs.target := by
  induction ops with
  | nil => intro fs _; rfl
  | cons op rest ih =>
    intro fs hmem
    rw [List.foldl_cons,
      ih (applyOp fs op) (fun h => hmem (List.mem_cons_of_mem op h))]
    cases op with
    | renameTmp => exact absurd (List.mem_cons_self _ _) hmem
    | mkTemp => rfl
    | openTarget => rfl
    | readMeta => rfl
    | readLine => rfl
    | writeTmp s => rfl

/-- C5: if any of the operations of `insert_mod_at_line` before the final
atomic rename fails (temp-file creation, open, metadata, line read, any
write), the run returns an error, the target file is byte-for-byte
unchanged, and the scratch file has been removed by the dropped guard; on
the success path the scratch file is gone too, renamed over the target. -/
theorem insert_mod_failure_safe :
    (∀ (mod_name content : List Char) (insert : Option Nat) (public : Bool) (k : Nat),
      k < (insertOps mod_name insert public content).length →
      (runOps ⟨content, false, []⟩ (insertOps mod_name insert public content)
          (some k)).1 = false ∧
        (runOps ⟨content, false, []⟩ (insertOps mod_name insert public content)
          (some k)).2.target = content ∧
        (runOps ⟨content, false, []⟩ (insertOps mod_name insert public content)
          (some k)).2.tmpExists = false) ∧
    (∀ (mod_name content : List Char) (insert : Option Nat) (public : Bool),
      (runOps ⟨content, false, []⟩ (insertOps mod_name insert public content)
          none).1 = true ∧
        (runOps ⟨content, false, []⟩ (insertOps mod_name insert public content)
          none).2.tmpExists = false) := by
  constructor
  · intro mod_name content insert public k hk
    obtain ⟨pre, hpre, hnomem⟩ := insertOps_shape mod_name insert public content
    rw [runOps_fail _ k _ hk]
    refine ⟨rfl, ?_, rfl⟩
    have htake : FsOp.renameTmp ∉ (insertOps mod_name insert public content).take k := by
      intro hmem
      have hk' : k ≤ pre.length := by
        rw [hpre, List.length_append] at hk
        simp at hk
        omega
      rw [hpre, List.take_append_of_le_length hk'] at hmem
      exact hnomem (List.mem_of_mem_take hmem)
    exact foldl_applyOp_target _ _ htake
  · intro mod_name content insert public
    obtain ⟨pre, hpre, _⟩ := insertOps_shape mod_name insert public content
    rw [runOps_none]
    refine ⟨rfl, ?_⟩
    rw [hpre, List.foldl_append]
    rfl

/-- Witness for C5: the very first operation (temp-file creation) failing
leaves a concrete target untouched. -/
theorem insert_mod_failure_safe_witness :
    (runOps ⟨"a\n".toList, false, []⟩
        (insertOps "y".toList (some 0) true "a\n".toList) (some 0)).2.target =
      "a\n".toList :=
  (insert_mod_failure_safe.1 "y".toList "a\n".toList (some 0) true 0 (by decide)).2.1

/-- Counterexample to C6: the scratch file is created in the system temp
directory (`NamedTempFile::new()` takes no location argument), which is not
the directory of this concrete target path. -/
theorem scratch_dir_not_target_dir :
    scratchDirOf ["home", "user", "proj", "src", "lib.rs"] ≠
      parentDirOf ["home", "user", "proj", "src", "lib.rs"] := by
  decide

/-- C6 (amended): the scratch file is created by `NamedTempFile::new()` in
the system temp directory, independent of the target's directory (so not
necessarily in the target's filesystem namespace); the target is replaced
by the single final rename of the scratch file — the rename is the last
operation performed, and no other operation writes the target (no
copy-and-delete). -/
theorem scratch_tempdir_single_rename :
    (∀ p : List String, scratchDirOf p = tempDir) ∧
    (∀ (mod_name content : List Char) (insert : Option Nat) (public : Bool),
      ∃ pre : List FsOp,
        insertOps mod_name insert public content = pre ++ [FsOp.renameTmp] ∧
          FsOp.renameTmp ∉ pre ∧
          ∀ fs : FsState, (List.foldl applyOp fs pre).target = fs.target) := by
  refine ⟨fun p => rfl, ?_⟩
  intro mod_name content insert public
  obtain ⟨pre, hpre, hno⟩ := insertOps_shape mod_name insert public content
  exact ⟨pre, hpre, hno, fun fs => foldl_applyOp_target pre fs hno⟩

/-- Witness for the amended C6 at a concrete path. -/
theorem scratch_tempdir_single_rename_witness :
    scratchDirOf ["a", "b.rs"] = tempDir :=
  scratch_tempdir_single_rename.1 ["a", "b.rs"]

/-! ### Super-file resolution -/

theorem parentOf_ne_nil (p : List String) (h : p ≠ []) :
    parentOf p = some p.dropLast := by
  cases p with
  | nil => exact absurd rfl h
  | cons a b => rfl

/-- C7: if the grandparent directory holds the manifest marker, the parent
is the project root: with `super_main` the root's `main.rs` is selected;
otherwise `lib.rs` is preferred when it exists, with `main.rs` as the
fallback.  If the parent is not the project root, the parent directory's
`mod.rs` is selected. -/
theorem super_path_selection :
    (∀ (fs : List (List String)) (path : List String),
      path ∈ fs → path ≠ [] → path.dropLast ≠ [] →
      path.dropLast.dropLast ++ ["Cargo.toml"] ∈ fs →
      path.dropLast ++ ["main.rs"] ∈ fs →
      super_path fs path true = .ok (path.dropLast ++ ["main.rs"])) ∧
    (∀ (fs : List (List String)) (path : List String),
      path ∈ fs → path ≠ [] → path.dropLast ≠ [] →
      path.dropLast.dropLast ++ ["Cargo.toml"] ∈ fs →
      path.dropLast ++ ["lib.rs"] ∈ fs →
      super_path fs path false = .ok (path.dropLast ++ ["lib.rs"])) ∧
    (∀ (fs : List (List String)) (path : List String),
      path ∈ fs → path ≠ [] → path.dropLast ≠ [] →
      path.dropLast.dropLast ++ ["Cargo.toml"] ∈ fs →
      path.dropLast ++ ["lib.rs"] ∉ fs →
      path.dropLast ++ ["main.rs"] ∈ fs →
      super_path fs path false = .ok (path.dropLast ++ ["main.rs"])) ∧
    (∀ (fs : List (List String)) (path : List String) (super_main : Bool),
      path ∈ fs → path ≠ [] → path.dropLast ≠ [] →
      path.dropLast.dropLast ++ ["Cargo.toml"] ∉ fs →
      path.dropLast ++ ["mod.rs"] ∈ fs →
      super_path fs path super_main = .ok (path.dropLast ++ ["mod.rs"])) := by
  refine ⟨?_, ?_, ?_, ?_⟩
  · intro fs path hmem hne hne2 hcargo hmain
    simp [super_path, parentOf_ne_nil path hne, parentOf_ne_nil path.dropLast hne2,
      hmem, hcargo, hmain]
  · intro fs path hmem hne hne2 hcargo hlib
    simp [super_path, parentOf_ne_nil path hne, parentOf_ne_nil path.dropLast hne2,
      hmem, hcargo, hlib]
  · intro fs path hmem hne hne2 hcargo hlib hmain
    simp [super_path, parentOf_ne_nil path hne, parentOf_ne_nil path.dropLast hne2,
      hmem, hcargo, hlib, hmain]
  · intro fs path super_main hmem hne hne2 hcargo hmod
    simp [super_path, parentOf_ne_nil path hne, parentOf_ne_nil path.dropLast hne2,
      hmem, hcargo, hmod]

/-- Witness for C7: the spec scenario — at the project root with
`super_main = false` and a `lib.rs` present, the library file is selected,
not `main.rs`. -/
theorem super_path_selection_witness :
    super_path [["r", "src", "m.rs"], ["r", "Cargo.toml"], ["r", "src", "lib.rs"],
        ["r", "src", "main.rs"]]
      ["r", "src", "m.rs"] false = .ok ["r", "src", "lib.rs"] := by
  have h := super_path_selection.2.1
    [["r", "src", "m.rs"], ["r", "Cargo.toml"], ["r", "src", "lib.rs"],
      ["r", "src", "main.rs"]]
    ["r", "src", "m.rs"] (by decide) (by decide) (by decide) (by decide) (by decide)
  exact h

/-- Counterexample to C8: with the module path existing, the parent being
the project root, and the computed super file (`main.rs`, since no
`lib.rs` exists) missing from disk, `super_path` fails with error kind
`InvalidInput` — not `NotFound` as claimed. -/
theorem super_path_missing_not_notfound :
    super_path [["home", "proj", "src", "foo.rs"], ["home", "proj", "Cargo.toml"]]
        ["home", "proj", "src", "foo.rs"] false = .error .InvalidInput ∧
      super_path [["home", "proj", "src", "foo.rs"], ["home", "proj", "Cargo.toml"]]
        ["home", "proj", "src", "foo.rs"] false ≠ .error .NotFound := by
  exact ⟨by decide, by decide⟩

/-- C8 (amended): for every module path that resolves (exists, with parent
and grandparent) but whose computed super file does not exist on disk,
`super_path` fails with an error of kind `InvalidInput` (the code's
"parent module does not exist"), not `NotFound`; it is a pure query and
creates no file. -/
theorem super_path_missing_super (fs : List (List String)) (path : List String)
    (super_main : Bool) (h1 : path ∈ fs) (h2 : path ≠ [])
    (h3 : path.dropLast ≠ [])
    (h4 : super_file_of fs path.dropLast super_main ∉ fs) :
    super_path fs path super_main = .error .InvalidInput := by
  simp only [super_file_of] at h4
  by_cases hcargo : path.dropLast.dropLast ++ ["Cargo.toml"] ∈ fs
  · rw [if_pos hcargo] at h4
    cases super_main with
    | true =>
      rw [if_pos rfl] at h4
      simp [super_path, parentOf_ne_nil path h2, parentOf_ne_nil path.dropLast h3,
        h1, hcargo, h4]
    | false =>
      rw [if_neg (by simp)] at h4
      by_cases hlib : path.dropLast ++ ["lib.rs"] ∈ fs
      · rw [if_pos hlib] at h4
        exact absurd hlib h4
      · rw [if_neg hlib] at h4
        simp [super_path, parentOf_ne_nil path h2, parentOf_ne_nil path.dropLast h3,
          h1, hcargo, hlib, h4]
  · rw [if_neg hcargo] at h4
    simp [super_path, parentOf_ne_nil path h2, parentOf_ne_nil path.dropLast h3,
      h1, hcargo, h4]

/-- Witness for the amended C8. -/
theorem super_path_missing_super_witness :
    super_path [["home", "proj", "src", "foo.rs"], ["home", "proj", "Cargo.toml"]]
      ["home", "proj", "src", "foo.rs"] true = .error .InvalidInput := by
  apply super_path_missing_super <;> decide

/-- C1: for every Classification Result, the insertion point computed by
`add_module_to` agrees with the specification's selection policy: preamble
with known end gives `end + 1`; preamble running to file end appends;
otherwise header comment with known end gives `end + 1`; header comment
running to file end appends; otherwise line 0. -/
theorem add_module_to_insert_eq_policy (pe : Bool) (pend : Option Nat)
    (hce : Bool) (hcend : Option Nat) :
    add_module_to_insert pe pend hce hcend = insertionPolicySpec pe pend hce hcend := by
  cases pe <;> cases hce <;> cases pend <;> cases hcend <;> rfl

/-- C9: inserting into a zero-byte file succeeds and produces a file whose
content is exactly the one module-declaration line (the zero-length check
makes the append branch fire even though the loop runs zero iterations),
for the insertion point the pipeline itself computes. -/
theorem add_module_to_empty_file (mod_name : List Char) (public : Bool) :
    add_module_to mod_name [] public = render [mod_line mod_name public] := by
  cases public <;> rfl

end Mkmod
